import Mathlib

/-!
# Verification of the ping-pong benchmark (src/3_pingpong.py)

This file embeds the core of `3_pingpong.py` as Lean definitions and proves
the spec's testable properties about them.

* A single pinger/ponger pair exchanging a token through two 1-slot bounded
  channels (`asyncio.Queue(maxsize=1)` / `queue.Queue(maxsize=1)`) is modelled
  as a small-step transition system `Step` over `PairState`.  The relation is
  nondeterministic in which enabled operation fires, so it covers every
  interleaving produced by either the cooperative (asyncio) scheduler or the
  OS-thread scheduler.
* `MStep` interleaves `pairs` independent copies of the pair system: this is
  the shape of `pingpong_asyncio` (a gather over `pairs` instances of
  `one_pair`).
* `TStep` adds the start barrier of `pingpong_threads`: every worker must
  arrive at the barrier (and the barrier must release, which requires all
  `2*pairs + 1` participants including the driver) before any channel
  operation can run.
* `parse_pairs`, the throughput/ratio computation of `main`, and the driver's
  event order in `pingpong_threads` are embedded directly as pure functions.

The put/get traces (`puts1`, `gets1`, `puts2`, `gets2`) are instrumentation:
they record, in order, the values that crossed each channel, so that the
operation-count and value-order properties can be stated about final states.
-/

set_option maxHeartbeats 1000000

/-- Program counter of the pinger (`pinger` in `one_pair` / `add_pair`):
`toPut i` means the next operation is `q1.put(i)` (loop iteration `i`),
`toGet i` means iteration `i`'s put is done and the next operation is
`q2.get()`; `done` means the `for i in range(iters)` loop is exhausted. -/
inductive PingPC where
  | toPut (i : Nat)
  | toGet (i : Nat)
  | done
  deriving DecidableEq, Repr

/-- Program counter of the ponger: `toGet j` means the next operation is
`q1.get()` in loop iteration `j`; `toPut j v` means the get returned `v` and
the next operation is `q2.put(v)`; `done` means the loop is exhausted. -/
inductive PongPC where
  | toGet (j : Nat)
  | toPut (j : Nat) (v : Nat)
  | done
  deriving DecidableEq, Repr

/-- State of one pinger/ponger pair: the two 1-slot channels `q1`, `q2`
(`none` = empty, `some v` = holding `v`), the two program counters and the
four instrumentation traces of values put/got on each channel. -/
structure PairState where
  ping : PingPC
  pong : PongPC
  q1 : Option Nat
  q2 : Option Nat
  puts1 : List Nat
  gets1 : List Nat
  puts2 : List Nat
  gets2 : List Nat
  deriving DecidableEq, Repr

/-- Pinger control after finishing iteration `k - 1`: continue with `toPut k`
while `k < iters`, otherwise leave the loop (`range(iters)` is exhausted). -/
def pingNext (iters k : Nat) : PingPC :=
  if k < iters then PingPC.toPut k else PingPC.done

/-- Ponger control after finishing iteration `k - 1`. -/
def pongNext (iters k : Nat) : PongPC :=
  if k < iters then PongPC.toGet k else PongPC.done

/-- Initial state of one pair: both channels empty (fresh
`Queue(maxsize=1)`), both loops at iteration 0, no operations performed. -/
def init (iters : Nat) : PairState :=
  { ping := pingNext iters 0, pong := pongNext iters 0,
    q1 := none, q2 := none,
    puts1 := [], gets1 := [], puts2 := [], gets2 := [] }

/-- One enabled channel operation of a pair.  `put` requires the 1-slot
channel to be empty (a full `Queue(maxsize=1)` blocks `put`), `get` requires
it to be non-empty (an empty queue blocks `get`); the scheduler may fire any
enabled operation, so the relation covers all interleavings under both
scheduler variants. -/
inductive Step (iters : Nat) : PairState → PairState → Prop where
  | putQ1 (s : PairState) (i : Nat)
      (hp : s.ping = PingPC.toPut i) (hq : s.q1 = none) :
      Step iters s { s with ping := PingPC.toGet i, q1 := some i,
                            puts1 := s.puts1 ++ [i] }
  | getQ2 (s : PairState) (i v : Nat)
      (hp : s.ping = PingPC.toGet i) (hq : s.q2 = some v) :
      Step iters s { s with ping := pingNext iters (i + 1), q2 := none,
                            gets2 := s.gets2 ++ [v] }
  | getQ1 (s : PairState) (j v : Nat)
      (hp : s.pong = PongPC.toGet j) (hq : s.q1 = some v) :
      Step iters s { s with pong := PongPC.toPut j v, q1 := none,
                            gets1 := s.gets1 ++ [v] }
  | putQ2 (s : PairState) (j v : Nat)
      (hp : s.pong = PongPC.toPut j v) (hq : s.q2 = none) :
      Step iters s { s with pong := pongNext iters (j + 1), q2 := some v,
                            puts2 := s.puts2 ++ [v] }

/-- Pair state at the top of iteration `i`: both loops at `i`, channels
empty, `i` values exchanged so far on each channel. -/
def stateA (i : Nat) : PairState :=
  { ping := PingPC.toPut i, pong := PongPC.toGet i, q1 := none, q2 := none,
    puts1 := List.range i, gets1 := List.range i,
    puts2 := List.range i, gets2 := List.range i }

/-- Pair state after the pinger's `q1.put(i)`. -/
def stateB (i : Nat) : PairState :=
  { ping := PingPC.toGet i, pong := PongPC.toGet i, q1 := some i, q2 := none,
    puts1 := List.range (i + 1), gets1 := List.range i,
    puts2 := List.range i, gets2 := List.range i }

/-- Pair state after the ponger's `q1.get()` returned `i`. -/
def stateC (i : Nat) : PairState :=
  { ping := PingPC.toGet i, pong := PongPC.toPut i i, q1 := none, q2 := none,
    puts1 := List.range (i + 1), gets1 := List.range (i + 1),
    puts2 := List.range i, gets2 := List.range i }

/-- Pair state after the ponger's `q2.put(i)`. -/
def stateD (iters i : Nat) : PairState :=
  { ping := PingPC.toGet i, pong := pongNext iters (i + 1),
    q1 := none, q2 := some i,
    puts1 := List.range (i + 1), gets1 := List.range (i + 1),
    puts2 := List.range (i + 1), gets2 := List.range i }

/-- Final pair state: both loops exhausted, channels empty, every channel
carried exactly the values `0, 1, …, iters - 1` in order. -/
def doneState (iters : Nat) : PairState :=
  { ping := PingPC.done, pong := PongPC.done, q1 := none, q2 := none,
    puts1 := List.range iters, gets1 := List.range iters,
    puts2 := List.range iters, gets2 := List.range iters }

/-- Invariant of the pair system: every reachable state is the final state or
one of the four phases of some iteration `i < iters`. -/
def PairInv (iters : Nat) (s : PairState) : Prop :=
  s = doneState iters ∨
    ∃ i, i < iters ∧
      (s = stateA i ∨ s = stateB i ∨ s = stateC i ∨ s = stateD iters i)

theorem pairInv_init (iters : Nat) : PairInv iters (init iters) := by
  by_cases h : 0 < iters
  · exact Or.inr ⟨0, h, Or.inl (by simp [init, stateA, pingNext, pongNext, h])⟩
  · have hz : iters = 0 := by omega
    subst hz
    exact Or.inl (by simp [init, doneState, pingNext, pongNext])

theorem step_preserves_pairInv {iters : Nat} {s s' : PairState}
    (hinv : PairInv iters s) (hst : Step iters s s') : PairInv iters s' := by
  rcases hinv with hdone | ⟨i, hiN, hA | hB | hC | hD⟩
  · subst hdone
    cases hst with
    | putQ1 i hp hq => simp [doneState] at hp
    | getQ2 i v hp hq => simp [doneState] at hp
    | getQ1 j v hp hq => simp [doneState] at hp
    | putQ2 j v hp hq => simp [doneState] at hp
  · subst hA
    cases hst with
    | putQ1 i0 hp hq =>
        simp [stateA] at hp
        subst hp
        exact Or.inr ⟨i, hiN, Or.inr (Or.inl (by
          simp [stateA, stateB, List.range_succ]))⟩
    | getQ2 i0 v hp hq => simp [stateA] at hp
    | getQ1 j v hp hq => simp [stateA] at hq
    | putQ2 j v hp hq => simp [stateA] at hp
  · subst hB
    cases hst with
    | putQ1 i0 hp hq => simp [stateB] at hp
    | getQ2 i0 v hp hq => simp [stateB] at hq
    | getQ1 j v hp hq =>
        simp [stateB] at hp hq
        subst hp
        subst hq
        exact Or.inr ⟨i, hiN, Or.inr (Or.inr (Or.inl (by
          simp [stateB, stateC, List.range_succ])))⟩
    | putQ2 j v hp hq => simp [stateB] at hp
  · subst hC
    cases hst with
    | putQ1 i0 hp hq => simp [stateC] at hp
    | getQ2 i0 v hp hq => simp [stateC] at hq
    | getQ1 j v hp hq => simp [stateC] at hq
    | putQ2 j v hp hq =>
        simp [stateC] at hp
        obtain ⟨hj, hv⟩ := hp
        subst hj
        subst hv
        exact Or.inr ⟨i, hiN, Or.inr (Or.inr (Or.inr (by
          simp [stateC, stateD, List.range_succ])))⟩
  · subst hD
    cases hst with
    | putQ1 i0 hp hq => simp [stateD] at hp
    | getQ2 i0 v hp hq =>
        simp [stateD] at hp hq
        subst hp
        subst hq
        by_cases hlt : i + 1 < iters
        · exact Or.inr ⟨i + 1, hlt, Or.inl (by
            simp [stateD, stateA, pingNext, pongNext, hlt, List.range_succ])⟩
        · have hN : i + 1 = iters := by omega
          subst hN
          exact Or.inl (by
            simp [stateD, doneState, pingNext, pongNext, List.range_succ])
    | getQ1 j v hp hq => simp [stateD] at hq
    | putQ2 j v hp hq =>
        exfalso
        simp [stateD, pongNext] at hp
        by_cases hlt : i + 1 < iters <;> simp [hlt] at hp

theorem step_from_doneState {iters : Nat} {s' : PairState}
    (h : Step iters (doneState iters) s') : False := by
  cases h with
  | putQ1 i hp hq => simp [doneState] at hp
  | getQ2 i v hp hq => simp [doneState] at hp
  | getQ1 j v hp hq => simp [doneState] at hp
  | putQ2 j v hp hq => simp [doneState] at hp

/-- Progress for one pair: a reachable state that is not the final state has
an enabled channel operation (the protocol never deadlocks). -/
theorem pairInv_progress {iters : Nat} {s : PairState}
    (hinv : PairInv iters s) (hne : s ≠ doneState iters) :
    ∃ s', Step iters s s' := by
  rcases hinv with hdone | ⟨i, hiN, hA | hB | hC | hD⟩
  · exact absurd hdone hne
  · subst hA
    exact ⟨_, Step.putQ1 (stateA i) i (by simp [stateA]) (by simp [stateA])⟩
  · subst hB
    exact ⟨_, Step.getQ1 (stateB i) i i (by simp [stateB]) (by simp [stateB])⟩
  · subst hC
    exact ⟨_, Step.putQ2 (stateC i) i i (by simp [stateC]) (by simp [stateC])⟩
  · subst hD
    exact ⟨_, Step.getQ2 (stateD iters i) i i (by simp [stateD])
      (by simp [stateD])⟩

theorem terminal_pairInv_done {iters : Nat} {s : PairState}
    (hinv : PairInv iters s) (hterm : ∀ s', ¬ Step iters s s') :
    s = doneState iters := by
  by_contra hne
  obtain ⟨s', hs⟩ := pairInv_progress hinv hne
  exact hterm s' hs

/-- Number of channel operations (puts and gets, both channels) a pair has
completed so far. -/
def opsDone (s : PairState) : Nat :=
  s.puts1.length + s.gets1.length + s.puts2.length + s.gets2.length

/-- Completed operations on channel `q1` (puts plus gets). -/
def chanAOps (s : PairState) : Nat := s.puts1.length + s.gets1.length

/-- Completed operations on channel `q2` (puts plus gets). -/
def chanBOps (s : PairState) : Nat := s.puts2.length + s.gets2.length

theorem step_opsDone {iters : Nat} {s s' : PairState} (h : Step iters s s') :
    opsDone s' = opsDone s + 1 := by
  cases h with
  | putQ1 i hp hq => simp [opsDone]; omega
  | getQ2 i v hp hq => simp [opsDone]; omega
  | getQ1 j v hp hq => simp [opsDone]; omega
  | putQ2 j v hp hq => simp [opsDone]; omega

theorem pairInv_opsDone_le {iters : Nat} {s : PairState}
    (h : PairInv iters s) : opsDone s ≤ 4 * iters := by
  rcases h with hdone | ⟨i, hiN, hA | hB | hC | hD⟩ <;> subst_vars <;>
    simp [opsDone, doneState, stateA, stateB, stateC, stateD] <;> omega

/-! ## The multi-pair system: `pingpong_asyncio`

`pingpong_asyncio iters pairs` gathers `pairs` independent copies of
`one_pair`; channels are created per pair and never shared, so the global
state is a list of pair states and a scheduler step advances exactly one
pair.  The relation covers every interleaving the cooperative scheduler (or
any other scheduler) can produce. -/

/-- Global state of `asyncio.gather(*[one_pair() for _ in range(pairs)])`
just after all pair tasks are created. -/
def minit (iters pairs : Nat) : List PairState :=
  List.replicate pairs (init iters)

/-- One scheduler step of the multi-pair run: some pair performs one of its
enabled channel operations. -/
inductive MStep (iters : Nat) : List PairState → List PairState → Prop where
  | step (pre : List PairState) (s s' : PairState) (post : List PairState)
      (h : Step iters s s') :
      MStep iters (pre ++ s :: post) (pre ++ s' :: post)

/-- The multi-pair run reached state `ms` from the initial state. -/
def MReach (iters pairs : Nat) (ms : List PairState) : Prop :=
  Relation.ReflTransGen (MStep iters) (minit iters pairs) ms

/-- No scheduler step is possible: the gather has completed (or deadlocked). -/
def MTerminal (iters : Nat) (ms : List PairState) : Prop :=
  ∀ ms', ¬ MStep iters ms ms'

/-- Invariant of the multi-pair system: the number of pairs is fixed and
every pair satisfies the pair invariant. -/
def MInv (iters pairs : Nat) (ms : List PairState) : Prop :=
  ms.length = pairs ∧ ∀ s ∈ ms, PairInv iters s

theorem mstep_preserves_minv {iters pairs : Nat} {ms ms' : List PairState}
    (hinv : MInv iters pairs ms) (h : MStep iters ms ms') :
    MInv iters pairs ms' := by
  cases h with
  | step pre s s' post hs =>
    obtain ⟨hlen, hmem⟩ := hinv
    refine ⟨by simp at hlen ⊢; omega, ?_⟩
    intro x hx
    rcases List.mem_append.1 hx with hx | hx
    · exact hmem x (List.mem_append.2 (Or.inl hx))
    · rcases List.mem_cons.1 hx with rfl | hx
      · exact step_preserves_pairInv (hmem s (by simp)) hs
      · exact hmem x (by simp [hx])

theorem mreach_minv {iters pairs : Nat} {ms : List PairState}
    (h : MReach iters pairs ms) : MInv iters pairs ms := by
  induction h with
  | refl =>
      refine ⟨by simp [minit], ?_⟩
      intro s hs
      rcases List.eq_of_mem_replicate hs with rfl
      exact pairInv_init iters
  | tail hab hbc ih => exact mstep_preserves_minv ih hbc

theorem mstep_src_mem {iters : Nat} {ms ms' : List PairState}
    (h : MStep iters ms ms') : ∃ s s', s ∈ ms ∧ Step iters s s' := by
  cases h with
  | step pre s s' post hs => exact ⟨s, s', by simp, hs⟩

/-- A finished multi-pair run is exactly `pairs` copies of the final pair
state: every pair completed all `iters` iterations. -/
theorem mterminal_done {iters pairs : Nat} {ms : List PairState}
    (hreach : MReach iters pairs ms) (hterm : MTerminal iters ms) :
    ms = List.replicate pairs (doneState iters) := by
  obtain ⟨hlen, hmem⟩ := mreach_minv hreach
  refine List.eq_replicate_iff.2 ⟨hlen, ?_⟩
  intro s hs
  refine terminal_pairInv_done (hmem s hs) ?_
  intro s' hstep
  obtain ⟨pre, post, rfl⟩ := List.append_of_mem hs
  exact hterm (pre ++ s' :: post) (MStep.step pre s s' post hstep)

theorem mterminal_replicate_done (iters pairs : Nat) :
    MTerminal iters (List.replicate pairs (doneState iters)) := by
  intro ms' h
  obtain ⟨s, s', hmem, hs⟩ := mstep_src_mem h
  rcases List.eq_of_mem_replicate hmem with rfl
  exact step_from_doneState hs

/-- Total number of channel operations completed across all pairs. -/
def mOps (ms : List PairState) : Nat := (ms.map opsDone).sum

theorem mstep_mOps {iters : Nat} {ms ms' : List PairState}
    (h : MStep iters ms ms') : mOps ms' = mOps ms + 1 := by
  cases h with
  | step pre s s' post hs =>
    simp [mOps, step_opsDone hs]
    omega

theorem sum_map_le_length_mul {α : Type} (f : α → Nat) (n : Nat)
    (l : List α) (h : ∀ x ∈ l, f x ≤ n) : (l.map f).sum ≤ l.length * n := by
  induction l with
  | nil => simp
  | cons a t ih =>
    have h1 : f a ≤ n := h a (by simp)
    have h2 : (t.map f).sum ≤ t.length * n :=
      ih (fun x hx => h x (by simp [hx]))
    have h3 : (a :: t).length * n = t.length * n + n := by
      simp [List.length_cons]; ring
    simp only [List.map_cons, List.sum_cons]
    omega

theorem minv_mOps_le {iters pairs : Nat} {ms : List PairState}
    (h : MInv iters pairs ms) : mOps ms ≤ pairs * (4 * iters) := by
  obtain ⟨hlen, hmem⟩ := h
  have := sum_map_le_length_mul opsDone (4 * iters) ms
    (fun s hs => pairInv_opsDone_le (hmem s hs))
  simpa [mOps, hlen] using this

theorem mOps_minit (iters pairs : Nat) : mOps (minit iters pairs) = 0 := by
  simp [mOps, minit, init, opsDone]

/-- The asyncio variant terminates: there is no infinite scheduler run from
the initial state (the gather cannot run forever). -/
theorem no_infinite_mrun (iters pairs : Nat) (f : Nat → List PairState)
    (h0 : f 0 = minit iters pairs)
    (hstep : ∀ n, MStep iters (f n) (f (n + 1))) : False := by
  have hreach : ∀ n, MReach iters pairs (f n) := by
    intro n
    induction n with
    | zero => rw [h0]; exact Relation.ReflTransGen.refl
    | succ n ih => exact Relation.ReflTransGen.tail ih (hstep n)
  have hops : ∀ n, mOps (f n) = n := by
    intro n
    induction n with
    | zero => rw [h0]; exact mOps_minit iters pairs
    | succ n ih => rw [mstep_mOps (hstep n), ih]
  have hle := minv_mOps_le (mreach_minv (hreach (pairs * (4 * iters) + 1)))
  rw [hops] at hle
  omega

/-! ## The thread system: `pingpong_threads`

`pingpong_threads iters pairs` creates a `threading.Barrier(2 * pairs + 1)`,
spawns one pinger thread and one ponger thread per pair (each of which calls
`start.wait()` as its very first action, before any channel operation), and
the driver itself waits on the barrier as the `+1`-st participant.  A
`threading.Barrier` releases every waiter simultaneously, exactly when the
number of arrived participants reaches the party count.  The state records
which workers (and whether the driver) have arrived, whether the barrier has
released, and the pair states. -/

/-- Party count of the start barrier:
`start = threading.Barrier(2 * pairs + 1)`. -/
def barrierParties (pairs : Nat) : Nat := 2 * pairs + 1

/-- Global state of the thread variant.  `pingArrived` / `pongArrived` flag,
per pair, whether that pair's pinger / ponger thread has called
`start.wait()`; `driverArrived` does the same for the driver; `released`
records whether the barrier has tripped. -/
structure TState where
  pingArrived : List Bool
  pongArrived : List Bool
  driverArrived : Bool
  released : Bool
  pairs : List PairState
  deriving DecidableEq, Repr

/-- State just after the `th.start()` loop: no participant has reached the
barrier yet, no channel operation has run. -/
def tinit (iters pairs : Nat) : TState :=
  { pingArrived := List.replicate pairs false,
    pongArrived := List.replicate pairs false,
    driverArrived := false, released := false,
    pairs := List.replicate pairs (init iters) }

/-- Number of participants that have reached the barrier so far (workers
plus the driver). -/
def arrivalCount (t : TState) : Nat :=
  t.pingArrived.count true + t.pongArrived.count true +
    (if t.driverArrived then 1 else 0)

/-- One step of the thread variant.  Workers (and the driver) may arrive at
the barrier in any order; the barrier releases exactly when all
`barrierParties pairs` participants have arrived; a channel operation of
some pair can fire only after the barrier has released, since every worker's
first action is `start.wait()`. -/
inductive TStep (iters pairs : Nat) : TState → TState → Prop where
  | arrivePing (t : TState) (pre post : List Bool)
      (h : t.pingArrived = pre ++ false :: post) :
      TStep iters pairs t { t with pingArrived := pre ++ true :: post }
  | arrivePong (t : TState) (pre post : List Bool)
      (h : t.pongArrived = pre ++ false :: post) :
      TStep iters pairs t { t with pongArrived := pre ++ true :: post }
  | arriveDriver (t : TState) (h : t.driverArrived = false) :
      TStep iters pairs t { t with driverArrived := true }
  | release (t : TState) (h : t.released = false)
      (hcount : arrivalCount t = barrierParties pairs) :
      TStep iters pairs t { t with released := true }
  | pairStep (t : TState) (pre : List PairState) (s s' : PairState)
      (post : List PairState) (hrel : t.released = true)
      (hpairs : t.pairs = pre ++ s :: post) (h : Step iters s s') :
      TStep iters pairs t { t with pairs := pre ++ s' :: post }

/-- The thread run reached state `t` from the initial state. -/
def TReach (iters pairs : Nat) (t : TState) : Prop :=
  Relation.ReflTransGen (TStep iters pairs) (tinit iters pairs) t

/-- No step of the thread variant is possible. -/
def TTerminal (iters pairs : Nat) (t : TState) : Prop :=
  ∀ t', ¬ TStep iters pairs t t'

/-- Invariant of the thread system: list lengths are fixed; every pair
satisfies the pair invariant; once the barrier has released, all `2*pairs`
workers and the driver have arrived; while it has not released, no pair has
performed any channel operation. -/
def TInv (iters pairs : Nat) (t : TState) : Prop :=
  t.pingArrived.length = pairs ∧ t.pongArrived.length = pairs ∧
  t.pairs.length = pairs ∧ (∀ s ∈ t.pairs, PairInv iters s) ∧
  (t.released = true →
    t.pingArrived = List.replicate pairs true ∧
    t.pongArrived = List.replicate pairs true ∧
    t.driverArrived = true) ∧
  (t.released = false → t.pairs = List.replicate pairs (init iters))

theorem tinv_tinit (iters pairs : Nat) : TInv iters pairs (tinit iters pairs) := by
  refine ⟨by simp [tinit], by simp [tinit], by simp [tinit], ?_, ?_, ?_⟩
  · intro s hs
    rcases List.eq_of_mem_replicate hs with rfl
    exact pairInv_init iters
  · intro h
    simp [tinit] at h
  · intro _
    rfl

theorem count_true_of_all_true {l : List Bool}
    (h : ∀ b ∈ l, b = true) : l.count true = l.length := by
  induction l with
  | nil => simp
  | cons a t ih =>
    have ha : a = true := h a (by simp)
    subst ha
    simp [ih (fun b hb => h b (by simp [hb]))]

theorem all_true_of_count_true {l : List Bool}
    (h : l.count true = l.length) : l = List.replicate l.length true := by
  induction l with
  | nil => simp
  | cons a t ih =>
    cases a with
    | true =>
        simp only [List.count_cons, List.length_cons] at h
        simp at h
        simp [List.replicate_succ]
        exact ih h
    | false =>
        exfalso
        have hle := List.count_le_length (a := true) (l := t)
        simp [List.count_cons] at h
        omega

theorem count_true_le_length (l : List Bool) : l.count true ≤ l.length := by
  induction l with
  | nil => simp
  | cons a t ih => cases a <;> simp [List.count_cons] <;> omega

theorem eq_replicate_true_of_count {l : List Bool} {n : Nat}
    (hlen : l.length = n) (hcnt : l.count true = n) :
    l = List.replicate n true := by
  subst hlen
  exact all_true_of_count_true hcnt

theorem tstep_preserves_tinv {iters pairs : Nat} {t t' : TState}
    (hinv : TInv iters pairs t) (h : TStep iters pairs t t') :
    TInv iters pairs t' := by
  obtain ⟨hlp, hlq, hlpr, hmem, hrel, hnrel⟩ := hinv
  cases h with
  | arrivePing pre post hdec =>
    refine ⟨?_, hlq, hlpr, hmem, ?_, fun hf => hnrel hf⟩
    · rw [hdec] at hlp
      simp at hlp ⊢
      omega
    · intro hr
      exfalso
      have hfmem : (false : Bool) ∈ List.replicate pairs true := by
        rw [← (hrel hr).1, hdec]
        simp
      simpa using List.eq_of_mem_replicate hfmem
  | arrivePong pre post hdec =>
    refine ⟨hlp, ?_, hlpr, hmem, ?_, fun hf => hnrel hf⟩
    · rw [hdec] at hlq
      simp at hlq ⊢
      omega
    · intro hr
      exfalso
      have hfmem : (false : Bool) ∈ List.replicate pairs true := by
        rw [← (hrel hr).2.1, hdec]
        simp
      simpa using List.eq_of_mem_replicate hfmem
  | arriveDriver hdrv =>
    refine ⟨hlp, hlq, hlpr, hmem, ?_, fun hf => hnrel hf⟩
    intro hr
    exfalso
    have := (hrel hr).2.2
    rw [this] at hdrv
    simp at hdrv
  | release hfalse hcount =>
    refine ⟨hlp, hlq, hlpr, hmem, ?_, ?_⟩
    · intro _
      have c1 := count_true_le_length t.pingArrived
      have c2 := count_true_le_length t.pongArrived
      rw [hlp] at c1
      rw [hlq] at c2
      cases hdv : t.driverArrived with
      | false =>
        exfalso
        simp [arrivalCount, hdv, barrierParties] at hcount
        omega
      | true =>
        simp [arrivalCount, hdv, barrierParties] at hcount
        have e1 : t.pingArrived.count true = pairs := by omega
        have e2 : t.pongArrived.count true = pairs := by omega
        exact ⟨eq_replicate_true_of_count hlp e1,
               eq_replicate_true_of_count hlq e2, by simp [hdv]⟩

    · intro hf
      have hf2 : True = False := by
        have : (true : Bool) = false := hf
        simp at this
      exact absurd trivial (hf2 ▸ id)
  | pairStep pre s s' post hrelt hpairs hstep =>
    refine ⟨hlp, hlq, ?_, ?_, fun hr => hrel hr, ?_⟩
    · rw [hpairs] at hlpr
      simp at hlpr ⊢
      omega
    · intro x hx
      simp only [] at hx
      rcases List.mem_append.1 hx with hx | hx
      · exact hmem x (by rw [hpairs]; exact List.mem_append.2 (Or.inl hx))
      · rcases List.mem_cons.1 hx with rfl | hx
        · exact step_preserves_pairInv
            (hmem s (by rw [hpairs]; simp)) hstep
        · exact hmem x (by rw [hpairs]; simp [hx])
    · intro hf
      have hf2 : t.released = false := hf
      rw [hrelt] at hf2
      simp at hf2

theorem treach_tinv {iters pairs : Nat} {t : TState}
    (h : TReach iters pairs t) : TInv iters pairs t := by
  induction h with
  | refl => exact tinv_tinit iters pairs
  | tail hab hbc ih => exact tstep_preserves_tinv ih hbc

/-- A stuck state of the thread variant is a fully completed run: the
barrier has released (all `2*pairs + 1` participants arrived) and every
pair finished all its iterations — the thread variant cannot deadlock
part-way. -/
theorem tterminal_done {iters pairs : Nat} {t : TState}
    (hreach : TReach iters pairs t) (hterm : TTerminal iters pairs t) :
    t.released = true ∧ t.pairs = List.replicate pairs (doneState iters) := by
  obtain ⟨hlp, hlq, hlpr, hmem, hrel, hnrel⟩ := treach_tinv hreach
  have hallping : ∀ b ∈ t.pingArrived, b = true := by
    intro b hb
    cases b with
    | true => rfl
    | false =>
      exfalso
      obtain ⟨pre, post, hdec⟩ := List.append_of_mem hb
      exact hterm _ (TStep.arrivePing t pre post hdec)
  have hallpong : ∀ b ∈ t.pongArrived, b = true := by
    intro b hb
    cases b with
    | true => rfl
    | false =>
      exfalso
      obtain ⟨pre, post, hdec⟩ := List.append_of_mem hb
      exact hterm _ (TStep.arrivePong t pre post hdec)
  have hdrv : t.driverArrived = true := by
    cases hdv : t.driverArrived with
    | true => rfl
    | false => exact absurd (TStep.arriveDriver t hdv) (hterm _)
  have hreleased : t.released = true := by
    cases hr : t.released with
    | true => rfl
    | false =>
      exfalso
      have hc : arrivalCount t = barrierParties pairs := by
        simp [arrivalCount, barrierParties, hdrv,
              count_true_of_all_true hallping,
              count_true_of_all_true hallpong, hlp, hlq]
        omega
      exact hterm _ (TStep.release t hr hc)
  refine ⟨hreleased, List.eq_replicate_iff.2 ⟨hlpr, ?_⟩⟩
  intro s hs
  refine terminal_pairInv_done (hmem s hs) ?_
  intro s' hstep
  obtain ⟨pre, post, hdec⟩ := List.append_of_mem hs
  exact hterm _ (TStep.pairStep t pre s s' post hreleased hdec hstep)

/-- Step-count measure of the thread system: every step (arrival, release,
or channel operation) increases it by exactly one. -/
def tOps (t : TState) : Nat :=
  mOps t.pairs + arrivalCount t + (if t.released then 1 else 0)

theorem tstep_tOps {iters pairs : Nat} {t t' : TState}
    (h : TStep iters pairs t t') : tOps t' = tOps t + 1 := by
  cases h with
  | arrivePing pre post hdec =>
    simp [tOps, arrivalCount, hdec, List.count_append, List.count_cons]
    omega
  | arrivePong pre post hdec =>
    simp [tOps, arrivalCount, hdec, List.count_append, List.count_cons]
    omega
  | arriveDriver hdrv =>
    simp [tOps, arrivalCount, hdrv] <;> omega
  | release hfalse hcount =>
    simp [tOps, arrivalCount, hfalse] <;> omega
  | pairStep pre s s' post hrelt hpairs hstep =>
    simp [tOps, mOps, hpairs, arrivalCount, step_opsDone hstep]
    omega

theorem tinv_tOps_le {iters pairs : Nat} {t : TState}
    (h : TInv iters pairs t) :
    tOps t ≤ pairs * (4 * iters) + 2 * pairs + 2 := by
  obtain ⟨hlp, hlq, hlpr, hmem, hrel, hnrel⟩ := h
  have hm : mOps t.pairs ≤ pairs * (4 * iters) := by
    have := sum_map_le_length_mul opsDone (4 * iters) t.pairs
      (fun s hs => pairInv_opsDone_le (hmem s hs))
    simpa [mOps, hlpr] using this
  have c1 := count_true_le_length t.pingArrived
  have c2 := count_true_le_length t.pongArrived
  rw [hlp] at c1
  rw [hlq] at c2
  cases hdv : t.driverArrived <;> cases hr : t.released <;>
    simp [tOps, arrivalCount, hdv, hr] <;> omega

theorem tOps_tinit (iters pairs : Nat) : tOps (tinit iters pairs) = 0 := by
  simp [tOps, tinit, mOps, init, opsDone, arrivalCount, List.count_replicate]

/-- The thread variant terminates: there is no infinite run from the
initial state (barrier arrivals, the release, and all channel operations
form a finite sequence; the joins then complete). -/
theorem no_infinite_trun (iters pairs : Nat) (f : Nat → TState)
    (h0 : f 0 = tinit iters pairs)
    (hstep : ∀ n, TStep iters pairs (f n) (f (n + 1))) : False := by
  have hreach : ∀ n, TReach iters pairs (f n) := by
    intro n
    induction n with
    | zero => rw [h0]; exact Relation.ReflTransGen.refl
    | succ n ih => exact Relation.ReflTransGen.tail ih (hstep n)
  have hops : ∀ n, tOps (f n) = n := by
    intro n
    induction n with
    | zero => rw [h0]; exact tOps_tinit iters pairs
    | succ n ih => rw [tstep_tOps (hstep n), ih]
  have hle := tinv_tOps_le (treach_tinv
    (hreach (pairs * (4 * iters) + 2 * pairs + 3)))
  rw [hops] at hle
  omega

/-! ## Concrete completed runs (used by the witnesses)

For `iters = 1`, `pairs = 1` we exhibit an explicit completed run of both
scheduler variants. -/

theorem step_cast {iters : Nat} {s a b : PairState}
    (h : Step iters s a) (heq : a = b) : Step iters s b := heq ▸ h

theorem tstep_cast {iters pairs : Nat} {t a b : TState}
    (h : TStep iters pairs t a) (heq : a = b) : TStep iters pairs t b :=
  heq ▸ h

theorem step01 : Step 1 (stateA 0) (stateB 0) :=
  step_cast (Step.putQ1 (stateA 0) 0 (by decide) (by decide)) (by decide)

theorem step12 : Step 1 (stateB 0) (stateC 0) :=
  step_cast (Step.getQ1 (stateB 0) 0 0 (by decide) (by decide)) (by decide)

theorem step23 : Step 1 (stateC 0) (stateD 1 0) :=
  step_cast (Step.putQ2 (stateC 0) 0 0 (by decide) (by decide)) (by decide)

theorem step34 : Step 1 (stateD 1 0) (doneState 1) :=
  step_cast (Step.getQ2 (stateD 1 0) 0 0 (by decide) (by decide)) (by decide)

theorem reachM11 : MReach 1 1 [doneState 1] := by
  show Relation.ReflTransGen (MStep 1) (minit 1 1) [doneState 1]
  have e0 : minit 1 1 = [stateA 0] := by decide
  rw [e0]
  have m01 : MStep 1 [stateA 0] [stateB 0] :=
    MStep.step [] (stateA 0) (stateB 0) [] step01
  have m12 : MStep 1 [stateB 0] [stateC 0] :=
    MStep.step [] (stateB 0) (stateC 0) [] step12
  have m23 : MStep 1 [stateC 0] [stateD 1 0] :=
    MStep.step [] (stateC 0) (stateD 1 0) [] step23
  have m34 : MStep 1 [stateD 1 0] [doneState 1] :=
    MStep.step [] (stateD 1 0) (doneState 1) [] step34
  exact Relation.ReflTransGen.tail (Relation.ReflTransGen.tail
    (Relation.ReflTransGen.tail (Relation.ReflTransGen.tail
      Relation.ReflTransGen.refl m01) m12) m23) m34

theorem termM11 : MTerminal 1 [doneState 1] :=
  mterminal_replicate_done 1 1

/-- Final state of the concrete `iters = 1`, `pairs = 1` thread run. -/
def tfinal11 : TState :=
  { pingArrived := [true], pongArrived := [true], driverArrived := true,
    released := true, pairs := [doneState 1] }

theorem reachT11 : TReach 1 1 tfinal11 := by
  show Relation.ReflTransGen (TStep 1 1) (tinit 1 1) tfinal11
  have e0 : tinit 1 1 =
      ({ pingArrived := [false], pongArrived := [false],
         driverArrived := false, released := false,
         pairs := [stateA 0] } : TState) := by decide
  rw [e0]
  have s1 : TStep 1 1
      { pingArrived := [false], pongArrived := [false],
        driverArrived := false, released := false, pairs := [stateA 0] }
      { pingArrived := [true], pongArrived := [false],
        driverArrived := false, released := false, pairs := [stateA 0] } :=
    tstep_cast (TStep.arrivePing _ [] [] (by decide)) (by decide)
  have s2 : TStep 1 1
      { pingArrived := [true], pongArrived := [false],
        driverArrived := false, released := false, pairs := [stateA 0] }
      { pingArrived := [true], pongArrived := [true],
        driverArrived := false, released := false, pairs := [stateA 0] } :=
    tstep_cast (TStep.arrivePong _ [] [] (by decide)) (by decide)
  have s3 : TStep 1 1
      { pingArrived := [true], pongArrived := [true],
        driverArrived := false, released := false, pairs := [stateA 0] }
      { pingArrived := [true], pongArrived := [true],
        driverArrived := true, released := false, pairs := [stateA 0] } :=
    tstep_cast (TStep.arriveDriver _ (by decide)) (by decide)
  have s4 : TStep 1 1
      { pingArrived := [true], pongArrived := [true],
        driverArrived := true, released := false, pairs := [stateA 0] }
      { pingArrived := [true], pongArrived := [true],
        driverArrived := true, released := true, pairs := [stateA 0] } :=
    tstep_cast (TStep.release _ (by decide) (by decide)) (by decide)
  have s5 : TStep 1 1
      { pingArrived := [true], pongArrived := [true],
        driverArrived := true, released := true, pairs := [stateA 0] }
      { pingArrived := [true], pongArrived := [true],
        driverArrived := true, released := true, pairs := [stateB 0] } :=
    tstep_cast (TStep.pairStep _ [] (stateA 0) (stateB 0) []
      (by decide) (by decide) step01) (by decide)
  have s6 : TStep 1 1
      { pingArrived := [true], pongArrived := [true],
        driverArrived := true, released := true, pairs := [stateB 0] }
      { pingArrived := [true], pongArrived := [true],
        driverArrived := true, released := true, pairs := [stateC 0] } :=
    tstep_cast (TStep.pairStep _ [] (stateB 0) (stateC 0) []
      (by decide) (by decide) step12) (by decide)
  have s7 : TStep 1 1
      { pingArrived := [true], pongArrived := [true],
        driverArrived := true, released := true, pairs := [stateC 0] }
      { pingArrived := [true], pongArrived := [true],
        driverArrived := true, released := true, pairs := [stateD 1 0] } :=
    tstep_cast (TStep.pairStep _ [] (stateC 0) (stateD 1 0) []
      (by decide) (by decide) step23) (by decide)
  have s8 : TStep 1 1
      { pingArrived := [true], pongArrived := [true],
        driverArrived := true, released := true, pairs := [stateD 1 0] }
      tfinal11 :=
    tstep_cast (TStep.pairStep _ [] (stateD 1 0) (doneState 1) []
      (by decide) (by decide) step34) (by decide)
  exact Relation.ReflTransGen.tail (Relation.ReflTransGen.tail
    (Relation.ReflTransGen.tail (Relation.ReflTransGen.tail
      (Relation.ReflTransGen.tail (Relation.ReflTransGen.tail
        (Relation.ReflTransGen.tail (Relation.ReflTransGen.tail
          Relation.ReflTransGen.refl s1) s2) s3) s4) s5) s6) s7) s8

theorem termT11 : TTerminal 1 1 tfinal11 := by
  intro t' h
  cases h with
  | arrivePing pre post hdec =>
    have hf : (false : Bool) ∈ tfinal11.pingArrived := by
      rw [hdec]; simp
    simp [tfinal11] at hf
  | arrivePong pre post hdec =>
    have hf : (false : Bool) ∈ tfinal11.pongArrived := by
      rw [hdec]; simp
    simp [tfinal11] at hf
  | arriveDriver hdrv => simp [tfinal11] at hdrv
  | release hfalse hcount => simp [tfinal11] at hfalse
  | pairStep pre s s' post hrelt hpairs hstep =>
    have hs : s ∈ tfinal11.pairs := by rw [hpairs]; simp
    simp [tfinal11] at hs
    subst hs
    exact step_from_doneState hstep

/-! ## `parse_pairs` and the `main` driver loop

`parse_pairs` splits on commas, strips whitespace from each part, skips
parts that are empty after stripping, converts each remaining part with
`int(...)` (a `ValueError` if the text is not an integer), rejects values
`<= 0` with `ValueError("pairs must be > 0")`, and rejects an empty result
with `ValueError("empty pairs list")`.  Python exceptions are modelled with
`Except String`.  The measured elapsed times are wall-clock values the
embedding cannot compute, so `main`'s loop is modelled with the two
measurement calls as parameters returning `Except String ℚ`; in the code
they are called with no exception handler, so any error propagates. -/

/-- Split a character list at every comma, like `s.split(",")`:
`"" ↦ [""]`, `"a,,b" ↦ ["a", "", "b"]`. -/
def splitOnComma : List Char → List (List Char)
  | [] => [[]]
  | c :: rest =>
    if c = ',' then [] :: splitOnComma rest
    else
      match splitOnComma rest with
      | t :: ts => (c :: t) :: ts
      | [] => [[c]]

/-- Remove leading and trailing whitespace, like `str.strip()`. -/
def stripChars (cs : List Char) : List Char :=
  ((cs.dropWhile Char.isWhitespace).reverse.dropWhile Char.isWhitespace).reverse

/-- Digits-only text to a number (`none` if empty or not all digits). -/
def digitsToNat (cs : List Char) : Option Nat :=
  if cs = [] then none
  else if cs.all Char.isDigit then
    some (cs.foldl (fun acc c => acc * 10 + (c.toNat - 48)) 0)
  else none

/-- Python's `int(text)` on already-stripped text: an optional sign followed
by digits (underscore and non-ASCII digit forms are not needed here);
`none` models the `ValueError` raised on malformed text. -/
def pyInt (cs : List Char) : Option Int :=
  match cs with
  | '+' :: rest => (digitsToNat rest).map Int.ofNat
  | '-' :: rest => (digitsToNat rest).map (fun n => -(n : Int))
  | _ => (digitsToNat cs).map Int.ofNat

/-- The loop body of `parse_pairs`: strip each part, skip empties, convert,
reject non-positive values. -/
def parseVals : List (List Char) → Except String (List Int)
  | [] => Except.ok []
  | part :: rest =>
    let tk := stripChars part
    if tk = [] then parseVals rest
    else
      match pyInt tk with
      | none => Except.error "invalid literal for int"
      | some v =>
        if v ≤ 0 then Except.error "pairs must be > 0"
        else
          match parseVals rest with
          | Except.error e => Except.error e
          | Except.ok vs => Except.ok (v :: vs)

/-- `parse_pairs` from `3_pingpong.py` (lines 20-32). -/
def parse_pairs (s : String) : Except String (List Int) :=
  match parseVals (splitOnComma s.data) with
  | Except.error e => Except.error e
  | Except.ok [] => Except.error "empty pairs list"
  | Except.ok vs => Except.ok vs

/-- The stripped, non-empty parts of the input — the "listed values" the
spec talks about. -/
def tokenVals (s : String) : List (List Char) :=
  ((splitOnComma s.data).map stripChars).filter (fun tk => tk ≠ [])

/-- One output row of the benchmark loop in `main`: the pair count and the
two computed throughputs. -/
structure Row where
  pairsCount : Int
  rpsAsync : ℚ
  rpsThreads : ℚ
  deriving DecidableEq, Repr

/-- Reported throughput:
`rps = (args.iters * p) / dt if dt > 0 else 0.0` (lines 120 and 125). -/
def rpsOf (iters p : Int) (dt : ℚ) : ℚ :=
  if 0 < dt then ((iters : ℚ) * (p : ℚ)) / dt else 0

/-- Reported speedup ratio for one pair count:
`rps_async[x] / rps_thr[x] if rps_thr[x] > 0 else 0.0` (line 130). -/
def speedup (ra rt : ℚ) : ℚ := if 0 < rt then ra / rt else 0

/-- The benchmark loop of `main` (lines 118-127): for each pair count,
measure the asyncio variant, then the thread variant, recording one row;
a raised exception propagates immediately (there is no handler). -/
def runPairs (iters : Int) (measA measT : Int → Except String ℚ) :
    List Int → Except String (List Row)
  | [] => Except.ok []
  | p :: rest =>
    match measA p with
    | Except.error e => Except.error e
    | Except.ok dtA =>
      match measT p with
      | Except.error e => Except.error e
      | Except.ok dtT =>
        match runPairs iters measA measT rest with
        | Except.error e => Except.error e
        | Except.ok rows =>
          Except.ok ({ pairsCount := p, rpsAsync := rpsOf iters p dtA,
                       rpsThreads := rpsOf iters p dtT } :: rows)

/-- `main` up to the result rows: parse the pair list (line 113), then run
the benchmark loop; a parse error propagates before any measurement. -/
def mainModel (iters : Int) (s : String)
    (measA measT : Int → Except String ℚ) : Except String (List Row) :=
  match parse_pairs s with
  | Except.error e => Except.error e
  | Except.ok l => runPairs iters measA measT l

/-- The x-axis of the plot (line 129):
`xs = sorted(set(rps_async.keys()) & set(rps_thr.keys()))` — both dicts are
keyed by the measured pair counts, so this is the sorted deduplication of
the pair counts of the rows. -/
def xsOf (rows : List Row) : List Int :=
  List.insertionSort (fun a b => a ≤ b) ((rows.map Row.pairsCount).dedup)

/-- Wall-clock interval as computed by `now() - t0`. -/
def elapsed (t0 t1 : ℚ) : ℚ := t1 - t0

/-- Number of loop iterations `range(iters)` yields for a Python `int`
argument: zero when `iters <= 0`. -/
def effIters (iters : Int) : Nat := iters.toNat

/-- One driver-side action of `pingpong_threads` (lines 57-90). -/
inductive DriverEvent where
  | createBarrier
  | spawnThreads
  | readStartTime
  | barrierWait
  | joinThreads
  | readEndTime
  deriving DecidableEq, Repr

/-- The driver's actions in `pingpong_threads`, in source order: the barrier
is created (line 59), the worker threads are started (lines 83-84), `t0 =
now()` is read (line 86), the driver waits on the barrier (line 87), the
workers are joined (lines 88-89), and `now() - t0` is returned (line 90). -/
def threadsDriverEvents : List DriverEvent :=
  [DriverEvent.createBarrier, DriverEvent.spawnThreads,
   DriverEvent.readStartTime, DriverEvent.barrierWait,
   DriverEvent.joinThreads, DriverEvent.readEndTime]

theorem parseVals_pos : ∀ (parts : List (List Char)) (vs : List Int),
    parseVals parts = Except.ok vs → ∀ v ∈ vs, 0 < v := by
  intro parts
  induction parts with
  | nil =>
    intro vs h v hv
    simp [parseVals] at h
    subst h
    simp at hv
  | cons part rest ih =>
    intro vs h v hv
    simp only [parseVals] at h
    by_cases htk : stripChars part = []
    · rw [if_pos htk] at h
      exact ih vs h v hv
    · rw [if_neg htk] at h
      cases hpi : pyInt (stripChars part) with
      | none => rw [hpi] at h; simp at h
      | some w =>
        rw [hpi] at h
        by_cases hw : w ≤ 0
        · simp [hw] at h
        · simp only [hw, if_false, if_neg] at h
          cases hrest : parseVals rest with
          | error e => rw [hrest] at h; simp at h
          | ok ws =>
            rw [hrest] at h
            simp at h
            subst h
            rcases List.mem_cons.1 hv with rfl | hv2
            · omega
            · exact ih ws hrest v hv2

theorem parseVals_ok_of_valid : ∀ (parts : List (List Char)),
    (∀ tk ∈ (parts.map stripChars).filter (fun tk => tk ≠ []),
      ∃ v, pyInt tk = some v ∧ 0 < v) →
    ∃ vs, parseVals parts = Except.ok vs ∧
      vs.length = ((parts.map stripChars).filter (fun tk => tk ≠ [])).length := by
  intro parts
  induction parts with
  | nil => intro h; exact ⟨[], rfl, by simp⟩
  | cons part rest ih =>
    intro h
    by_cases htk : stripChars part = []
    · have hfil : ((part :: rest).map stripChars).filter (fun tk => tk ≠ []) =
          (rest.map stripChars).filter (fun tk => tk ≠ []) := by
        simp [List.filter_cons, htk]
      obtain ⟨vs, hok, hlen⟩ := ih (fun tk hm => h tk (by rw [hfil]; exact hm))
      refine ⟨vs, ?_, by rw [hfil]; exact hlen⟩
      simp only [parseVals]
      rw [if_pos htk]
      exact hok
    · have hfil : ((part :: rest).map stripChars).filter (fun tk => tk ≠ []) =
          stripChars part ::
            ((rest.map stripChars).filter (fun tk => tk ≠ [])) := by
        simp [List.filter_cons, htk]
      obtain ⟨v, hpi, hv⟩ := h (stripChars part) (by rw [hfil]; simp)
      obtain ⟨vs, hok, hlen⟩ := ih (fun tk hm => h tk (by rw [hfil]; exact List.mem_cons_of_mem _ hm))
      refine ⟨v :: vs, ?_, by rw [hfil]; simp [hlen]⟩
      simp [parseVals, htk, hpi, hok, show ¬ v ≤ 0 from by omega]

theorem runPairs_map_pairsCount :
    ∀ (iters : Int) (measA measT : Int → Except String ℚ)
      (l : List Int) (rows : List Row),
      runPairs iters measA measT l = Except.ok rows →
      rows.map Row.pairsCount = l := by
  intro iters measA measT l
  induction l with
  | nil =>
    intro rows h
    simp [runPairs] at h
    subst h
    rfl
  | cons p rest ih =>
    intro rows h
    simp only [runPairs] at h
    cases hA : measA p with
    | error e => rw [hA] at h; simp at h
    | ok dtA =>
      rw [hA] at h
      cases hT : measT p with
      | error e => rw [hT] at h; simp at h
      | ok dtT =>
        rw [hT] at h
        cases hrest : runPairs iters measA measT rest with
        | error e => rw [hrest] at h; simp at h
        | ok rs =>
          rw [hrest] at h
          simp at h
          subst h
          simp [ih rs hrest]

theorem pairInv_zero {s : PairState} (h : PairInv 0 s) : s = doneState 0 := by
  rcases h with h | ⟨i, hi, _⟩
  · exact h
  · omega

theorem mreach_zero {pairs : Nat} {ms : List PairState}
    (h : MReach 0 pairs ms) : ms = minit 0 pairs := by
  induction h with
  | refl => rfl
  | tail hab hbc ih =>
    exfalso
    rw [ih] at hbc
    have hz : init 0 = doneState 0 := by decide
    rw [show minit 0 pairs = List.replicate pairs (doneState 0) from by
      simp [minit, hz]] at hbc
    exact mterminal_replicate_done 0 pairs _ hbc

theorem treach_zero_ops {pairs : Nat} {t : TState}
    (h : TReach 0 pairs t) : mOps t.pairs = 0 := by
  obtain ⟨hlp, hlq, hlpr, hmem, hrel, hnrel⟩ := treach_tinv h
  refine List.sum_eq_zero ?_
  intro x hx
  obtain ⟨s, hs, rfl⟩ := List.mem_map.1 hx
  rw [pairInv_zero (hmem s hs)]
  decide

/-! ## Claim theorems -/

theorem replicate_done_counts (iters pairs : Nat) :
    (∀ s ∈ List.replicate pairs (doneState iters),
      s.puts1.length = iters ∧ s.gets1.length = iters ∧
      s.puts2.length = iters ∧ s.gets2.length = iters) ∧
    ((List.replicate pairs (doneState iters)).map chanAOps).sum =
      pairs * (2 * iters) ∧
    ((List.replicate pairs (doneState iters)).map chanBOps).sum =
      pairs * (2 * iters) := by
  have hA : chanAOps (doneState iters) = 2 * iters := by
    simp [chanAOps, doneState]
    omega
  have hB : chanBOps (doneState iters) = 2 * iters := by
    simp [chanBOps, doneState]
    omega
  refine ⟨?_, ?_, ?_⟩
  · intro s hs
    rcases List.eq_of_mem_replicate hs with rfl
    simp [doneState]
  · rw [List.map_replicate, hA, List.sum_replicate, smul_eq_mul]
  · rw [List.map_replicate, hB, List.sum_replicate, smul_eq_mul]

/-- C1: for `iters ≥ 1` and `pairs ≥ 1`, a completed run under either
scheduler variant performs exactly `iters` puts and `iters` gets on each of
a pair's two channels (`2 * iters` operations per channel per pair), and the
per-channel total across the `pairs` independent pairs is
`pairs * (2 * iters)`. -/
theorem pingpong_op_counts (iters pairs : Nat)
    (hN : 1 ≤ iters) (hP : 1 ≤ pairs) :
    (∀ ms, MReach iters pairs ms → MTerminal iters ms →
      (∀ s ∈ ms, s.puts1.length = iters ∧ s.gets1.length = iters ∧
        s.puts2.length = iters ∧ s.gets2.length = iters) ∧
      (ms.map chanAOps).sum = pairs * (2 * iters) ∧
      (ms.map chanBOps).sum = pairs * (2 * iters)) ∧
    (∀ t, TReach iters pairs t → TTerminal iters pairs t →
      (∀ s ∈ t.pairs, s.puts1.length = iters ∧ s.gets1.length = iters ∧
        s.puts2.length = iters ∧ s.gets2.length = iters) ∧
      (t.pairs.map chanAOps).sum = pairs * (2 * iters) ∧
      (t.pairs.map chanBOps).sum = pairs * (2 * iters)) := by
  constructor
  · intro ms hr ht
    rw [mterminal_done hr ht]
    exact replicate_done_counts iters pairs
  · intro t hr ht
    rw [(tterminal_done hr ht).2]
    exact replicate_done_counts iters pairs

theorem pingpong_op_counts_witness :
    (List.map chanAOps [doneState 1]).sum = 1 * (2 * 1) ∧
    (List.map chanBOps [doneState 1]).sum = 1 * (2 * 1) ∧
    (List.map chanAOps tfinal11.pairs).sum = 1 * (2 * 1) := by
  have h := pingpong_op_counts 1 1 (by decide) (by decide)
  have hM := h.1 [doneState 1] reachM11 termM11
  have hT := h.2 tfinal11 reachT11 termT11
  exact ⟨hM.2.1, hM.2.2, hT.2.1⟩

theorem replicate_done_values (iters pairs : Nat) :
    ∀ s ∈ List.replicate pairs (doneState iters),
      s.gets1 = s.puts1 ∧ s.gets1 = List.range iters ∧
      s.gets2 = s.puts2 ∧ s.gets2 = List.range iters := by
  intro s hs
  rcases List.eq_of_mem_replicate hs with rfl
  simp [doneState]

/-- C2: in a completed run (either scheduler variant), each pair's gets on
channel `q1` return exactly the pinger's put values `0, 1, …, iters - 1`
in that order, and likewise on channel `q2`: no value is lost, duplicated
or reordered. -/
theorem pingpong_values_in_order (iters pairs : Nat)
    (hN : 1 ≤ iters) (hP : 1 ≤ pairs) :
    (∀ ms, MReach iters pairs ms → MTerminal iters ms →
      ∀ s ∈ ms, s.gets1 = s.puts1 ∧ s.gets1 = List.range iters ∧
        s.gets2 = s.puts2 ∧ s.gets2 = List.range iters) ∧
    (∀ t, TReach iters pairs t → TTerminal iters pairs t →
      ∀ s ∈ t.pairs, s.gets1 = s.puts1 ∧ s.gets1 = List.range iters ∧
        s.gets2 = s.puts2 ∧ s.gets2 = List.range iters) := by
  constructor
  · intro ms hr ht
    rw [mterminal_done hr ht]
    exact replicate_done_values iters pairs
  · intro t hr ht
    rw [(tterminal_done hr ht).2]
    exact replicate_done_values iters pairs

theorem pingpong_values_in_order_witness :
    (doneState 1).gets1 = (doneState 1).puts1 ∧
    (doneState 1).gets1 = List.range 1 := by
  have h := pingpong_values_in_order 1 1 (by decide) (by decide)
  have hs := h.1 [doneState 1] reachM11 termM11 (doneState 1) (by simp)
  exact ⟨hs.1, hs.2.1⟩

/-- C3: contrary to the claim, the driver of `pingpong_threads` records the
start timestamp `t0 = now()` (line 86, position 2 of its event sequence)
BEFORE it waits on the start barrier (line 87, position 3), so the driver's
barrier wait — the tail of the thread-spawn latency — lies inside the
measured interval. -/
theorem threads_t0_before_barrier :
    threadsDriverEvents.indexOf DriverEvent.readStartTime = 2 ∧
    threadsDriverEvents.indexOf DriverEvent.barrierWait = 3 ∧
    threadsDriverEvents.indexOf DriverEvent.readStartTime <
      threadsDriverEvents.indexOf DriverEvent.barrierWait := by
  decide

/-- C4: the start barrier has party count `2 * pairs + 1`; in any reachable
state of the thread variant in which any channel operation has completed,
the barrier has released, which required all `2 * pairs + 1` participants
(every worker and the driver) to arrive; while the barrier has not released
no pair has performed any channel operation. -/
theorem barrier_gates_channel_ops (iters pairs : Nat) (t : TState)
    (hreach : TReach iters pairs t) :
    barrierParties pairs = 2 * pairs + 1 ∧
    (0 < mOps t.pairs →
      t.released = true ∧ arrivalCount t = barrierParties pairs) ∧
    (t.released = false →
      t.pairs = List.replicate pairs (init iters) ∧ mOps t.pairs = 0) := by
  obtain ⟨hlp, hlq, hlpr, hmem, hrel, hnrel⟩ := treach_tinv hreach
  have hz : t.released = false → mOps t.pairs = 0 := by
    intro h
    rw [hnrel h]
    simp [mOps, List.map_replicate, List.sum_replicate, init, opsDone]
  refine ⟨rfl, ?_, fun h => ⟨hnrel h, hz h⟩⟩
  intro hops
  cases hr : t.released with
  | false =>
    exfalso
    rw [hz hr] at hops
    omega
  | true =>
    obtain ⟨e1, e2, e3⟩ := hrel hr
    refine ⟨rfl, ?_⟩
    simp [arrivalCount, e1, e2, e3, barrierParties, List.count_replicate] <;>
      omega

theorem barrier_gates_channel_ops_witness :
    barrierParties 1 = 2 * 1 + 1 ∧ tfinal11.released = true ∧
    arrivalCount tfinal11 = barrierParties 1 := by
  have h := barrier_gates_channel_ops 1 1 tfinal11 reachT11
  exact ⟨h.1, (h.2.1 (by decide)).1, (h.2.1 (by decide)).2⟩

/-- C5: `parse_pairs` rejects any listed value `<= 0` and an empty result
list with a configuration error (`"0"` and `""` are the spec's concrete
cases); the error propagates out of `main`'s model before any measurement
function is consulted and before any result row exists; and an input whose
stripped, non-empty parts are all positive integers parses without error. -/
theorem parse_pairs_validation :
    parse_pairs "0" = Except.error "pairs must be > 0" ∧
    parse_pairs "" = Except.error "empty pairs list" ∧
    (∀ s l, parse_pairs s = Except.ok l → l ≠ [] ∧ ∀ v ∈ l, 0 < v) ∧
    (∀ (iters : Int) (s e : String)
        (measA measT : Int → Except String ℚ),
      parse_pairs s = Except.error e →
      mainModel iters s measA measT = Except.error e) ∧
    (∀ s : String,
      (∀ tk ∈ tokenVals s, ∃ v, pyInt tk = some v ∧ 0 < v) →
      tokenVals s ≠ [] → ∃ l, parse_pairs s = Except.ok l) := by
  refine ⟨rfl, rfl, ?_, ?_, ?_⟩
  · intro s l h
    unfold parse_pairs at h
    cases hpv : parseVals (splitOnComma s.data) with
    | error e => rw [hpv] at h; simp at h
    | ok vs =>
      rw [hpv] at h
      cases vs with
      | nil => simp at h
      | cons v rest =>
        simp at h
        subst h
        exact ⟨by simp, parseVals_pos _ _ hpv⟩
  · intro iters s e measA measT h
    simp [mainModel, h]
  · intro s hval hne
    obtain ⟨vs, hok, hlen⟩ := parseVals_ok_of_valid (splitOnComma s.data) hval
    refine ⟨vs, ?_⟩
    unfold parse_pairs
    rw [hok]
    cases hvs : vs with
    | nil =>
      exfalso
      apply hne
      rw [hvs] at hlen
      exact List.eq_nil_of_length_eq_zero (by
        simpa [tokenVals] using hlen.symm)
    | cons v rest => rfl

theorem parse_pairs_validation_witness :
    ([3] : List Int) ≠ [] ∧
    mainModel 300000 "0" (fun _ => Except.ok 1) (fun _ => Except.ok 1) =
      Except.error "pairs must be > 0" := by
  refine ⟨(parse_pairs_validation.2.2.1 "3" [3] rfl).1, ?_⟩
  exact parse_pairs_validation.2.2.2.1 300000 "0" "pairs must be > 0"
    (fun _ => Except.ok 1) (fun _ => Except.ok 1) rfl

/-- C6 counterexample: when the asyncio measurement for pair count 1 raises,
`main`'s loop (which has no exception handler) yields that error directly:
the thread measurement for the same pair count is not attempted or
reported, and no result row — invalid marker or otherwise — exists. -/
theorem measurement_error_no_thread_row :
    runPairs 300000 (fun _ => Except.error "cannot spawn threads")
      (fun _ => Except.ok 1) [1] = Except.error "cannot spawn threads" := rfl

/-- C6 (amended): a failing measurement makes `main`'s loop propagate the
error immediately — whether the asyncio variant or the thread variant
fails, the loop result is that error and no rows are produced. -/
theorem measurement_error_aborts_loop (iters : Int)
    (measA measT : Int → Except String ℚ) (p : Int) (ps : List Int)
    (e : String) :
    (measA p = Except.error e →
      runPairs iters measA measT (p :: ps) = Except.error e) ∧
    (∀ dtA, measA p = Except.ok dtA → measT p = Except.error e →
      runPairs iters measA measT (p :: ps) = Except.error e) := by
  constructor
  · intro h
    simp [runPairs, h]
  · intro dtA hA hT
    simp [runPairs, hA, hT]

theorem measurement_error_aborts_loop_witness :
    runPairs 7 (fun _ => Except.ok 1) (fun _ => Except.error "boom") [2] =
      Except.error "boom" :=
  (measurement_error_aborts_loop 7 (fun _ => Except.ok 1)
    (fun _ => Except.error "boom") 2 [] "boom").2 1 rfl rfl

/-- C7: for a run with `iters ≥ 1`, `p ≥ 1` and strictly positive elapsed
times, the reported throughput is `iters * p / dt` (hence strictly positive,
and a rational value is always finite), and the reported speedup ratio is
the asyncio throughput divided by the thread throughput. -/
theorem throughput_formula (iters p : Int) (dtA dtT : ℚ)
    (hi : 1 ≤ iters) (hp : 1 ≤ p) (hA : 0 < dtA) (hT : 0 < dtT) :
    rpsOf iters p dtA = (iters : ℚ) * (p : ℚ) / dtA ∧
    0 < rpsOf iters p dtA ∧ 0 < rpsOf iters p dtT ∧
    speedup (rpsOf iters p dtA) (rpsOf iters p dtT) =
      rpsOf iters p dtA / rpsOf iters p dtT := by
  have h1 : (0 : ℚ) < (iters : ℚ) := by
    exact_mod_cast (by omega : (0 : Int) < iters)
  have h2 : (0 : ℚ) < (p : ℚ) := by
    exact_mod_cast (by omega : (0 : Int) < p)
  have hip : (0 : ℚ) < (iters : ℚ) * (p : ℚ) := mul_pos h1 h2
  have hra : rpsOf iters p dtA = (iters : ℚ) * (p : ℚ) / dtA := by
    simp [rpsOf, hA]
  have hrt : rpsOf iters p dtT = (iters : ℚ) * (p : ℚ) / dtT := by
    simp [rpsOf, hT]
  have hposA : 0 < rpsOf iters p dtA := by
    rw [hra]; exact div_pos hip hA
  have hposT : 0 < rpsOf iters p dtT := by
    rw [hrt]; exact div_pos hip hT
  exact ⟨hra, hposA, hposT, by simp [speedup, hposT]⟩

theorem throughput_formula_witness :
    rpsOf 300000 1 (1 : ℚ) = ((300000 : Int) : ℚ) * ((1 : Int) : ℚ) / 1 ∧
    0 < rpsOf 300000 1 (1 : ℚ) ∧ 0 < rpsOf 300000 1 (2 : ℚ) ∧
    speedup (rpsOf 300000 1 1) (rpsOf 300000 1 2) =
      rpsOf 300000 1 1 / rpsOf 300000 1 2 :=
  throughput_formula 300000 1 1 2 (by decide) (by decide) (by decide)
    (by decide)

/-- C8 counterexample: `parse_pairs` does not deduplicate — on input
`"2,2"` the parsed pair-count list contains the value 2 twice, so `main`'s
loop measures pair count 2 twice. -/
theorem parse_pairs_not_dedup :
    parse_pairs "2,2" = Except.ok [2, 2] ∧
    ([2, 2] : List Int).count 2 = 2 := ⟨rfl, rfl⟩

/-- C8 (amended): the parsed pair-count list drives the measurement loop
with every occurrence preserved in input order (a duplicated pair count is
measured once per occurrence); only the plot's x-axis
(`sorted(set(...) & set(...))`, line 129) is deduplicated and sorted. -/
theorem parse_pairs_keeps_duplicates (iters : Int)
    (measA measT : Int → Except String ℚ) (l : List Int) (rows : List Row)
    (h : runPairs iters measA measT l = Except.ok rows) :
    rows.map Row.pairsCount = l ∧ (xsOf rows).Nodup ∧
    List.Sorted (fun a b => a ≤ b) (xsOf rows) := by
  refine ⟨runPairs_map_pairsCount iters measA measT l rows h, ?_, ?_⟩
  · exact (List.perm_insertionSort (fun a b => a ≤ b)
      ((rows.map Row.pairsCount).dedup)).nodup_iff.2 (List.nodup_dedup _)
  · exact List.sorted_insertionSort (fun a b => a ≤ b)
      ((rows.map Row.pairsCount).dedup)

/-- C9: for `iters ≥ 1`, `pairs ≥ 1`, both scheduler variants terminate:
no infinite run exists from either initial state, and any state from which
no step is possible is the fully completed one (every pair finished all its
iterations, so the gather/joins finish and an elapsed time is returned). -/
theorem pingpong_terminates (iters pairs : Nat)
    (hN : 1 ≤ iters) (hP : 1 ≤ pairs) :
    (∀ f : Nat → List PairState, f 0 = minit iters pairs →
      ¬ ∀ n, MStep iters (f n) (f (n + 1))) ∧
    (∀ ms, MReach iters pairs ms → MTerminal iters ms →
      ms = List.replicate pairs (doneState iters)) ∧
    (∀ f : Nat → TState, f 0 = tinit iters pairs →
      ¬ ∀ n, TStep iters pairs (f n) (f (n + 1))) ∧
    (∀ t, TReach iters pairs t → TTerminal iters pairs t →
      t.released = true ∧
      t.pairs = List.replicate pairs (doneState iters)) :=
  ⟨fun f h0 hstep => no_infinite_mrun iters pairs f h0 hstep,
   fun ms hr ht => mterminal_done hr ht,
   fun f h0 hstep => no_infinite_trun iters pairs f h0 hstep,
   fun t hr ht => tterminal_done hr ht⟩

theorem pingpong_terminates_witness :
    [doneState 1] = List.replicate 1 (doneState 1) ∧
    tfinal11.released = true ∧
    tfinal11.pairs = List.replicate 1 (doneState 1) := by
  have h := pingpong_terminates 1 1 (by decide) (by decide)
  refine ⟨h.2.1 [doneState 1] reachM11 termM11, ?_, ?_⟩
  · exact (h.2.2.2 tfinal11 reachT11 termT11).1
  · exact (h.2.2.2 tfinal11 reachT11 termT11).2

/-- C10: for a Python `iters <= 0` both variants run their loops zero times
(`range(iters)` is empty): the asyncio system starts and remains in its
initial, already-final state with zero channel operations; every reachable
state of the thread variant has zero channel operations and the thread
variant still terminates; and with a monotonic clock (`t0 <= t1`, as
`time.perf_counter` guarantees) the returned elapsed time is
non-negative. -/
theorem nonpositive_iters_zero_ops (iters : Int) (h : iters ≤ 0)
    (pairs : Nat) :
    effIters iters = 0 ∧
    (∀ ms, MReach (effIters iters) pairs ms →
      ms = minit 0 pairs ∧ mOps ms = 0) ∧
    (∀ t, TReach (effIters iters) pairs t → mOps t.pairs = 0) ∧
    (∀ f : Nat → TState, f 0 = tinit (effIters iters) pairs →
      ¬ ∀ n, TStep (effIters iters) pairs (f n) (f (n + 1))) ∧
    (∀ t0 t1 : ℚ, t0 ≤ t1 → 0 ≤ elapsed t0 t1) := by
  have h0 : effIters iters = 0 := Int.toNat_of_nonpos h
  refine ⟨h0, ?_, ?_, ?_, ?_⟩
  · intro ms hr
    rw [h0] at hr
    have he := mreach_zero hr
    exact ⟨he, by rw [he]; exact mOps_minit 0 pairs⟩
  · intro t hr
    rw [h0] at hr
    exact treach_zero_ops hr
  · intro f hf0 hstep
    exact no_infinite_trun (effIters iters) pairs f hf0 hstep
  · intro t0 t1 hle
    simp [elapsed]
    linarith

theorem nonpositive_iters_zero_ops_witness :
    effIters (-2) = 0 ∧ mOps (minit 0 1) = 0 ∧ (0 : ℚ) ≤ elapsed 3 5 := by
  have h := nonpositive_iters_zero_ops (-2) (by decide) 1
  refine ⟨h.1, ?_, h.2.2.2.2 3 5 (by decide)⟩
  exact (h.2.1 (minit 0 1) (by rw [h.1]; exact Relation.ReflTransGen.refl)).2

theorem parse_pairs_keeps_duplicates_witness :
    List.map Row.pairsCount
        [{ pairsCount := 2, rpsAsync := rpsOf 5 2 1,
           rpsThreads := rpsOf 5 2 1 },
         { pairsCount := 2, rpsAsync := rpsOf 5 2 1,
           rpsThreads := rpsOf 5 2 1 }] = [2, 2] ∧
    (xsOf [{ pairsCount := 2, rpsAsync := rpsOf 5 2 1,
             rpsThreads := rpsOf 5 2 1 },
           { pairsCount := 2, rpsAsync := rpsOf 5 2 1,
             rpsThreads := rpsOf 5 2 1 }]).Nodup ∧
    List.Sorted (fun a b => a ≤ b)
      (xsOf [{ pairsCount := 2, rpsAsync := rpsOf 5 2 1,
               rpsThreads := rpsOf 5 2 1 },
             { pairsCount := 2, rpsAsync := rpsOf 5 2 1,
               rpsThreads := rpsOf 5 2 1 }]) :=
  parse_pairs_keeps_duplicates 5 (fun _ => Except.ok 1)
    (fun _ => Except.ok 1) [2, 2]
    [{ pairsCount := 2, rpsAsync := rpsOf 5 2 1, rpsThreads := rpsOf 5 2 1 },
     { pairsCount := 2, rpsAsync := rpsOf 5 2 1, rpsThreads := rpsOf 5 2 1 }]
    rfl
